import Mathlib

/-
  Verification development for the dynamic-middle-ellipsis text-fitting engine.

  Shallow embedding of:
  - `src/src/text-truncate/core/string-utils.ts` (namespace `StringUtils`):
    font width table lookup, canvas measurement fallback with its module-level
    cache, scaled character widths, string width summation.
  - `src/unnamed/part_004` `truncateText` (namespace `V4`): the pure
    measured-width greedy middle-truncation variant.  Its multi-line budget
    adjustment (lines 28-31) is character-for-character the same code as
    `src/unnamed/part_003` lines 28-31.
  - `src/unnamed/part_008` `truncateText` / `truncateOnResize` (namespace `V8`):
    the DOM-probe binary-search variant with a fine-tune pass.

  Modelling conventions:
  - JS strings are `List Char`; JS numbers that carry pixel widths are `ℚ`.
  - The DOM is abstracted by oracles: `overflow : List Char → Bool` models
    "after `targetElement.textContent = s`, `checkOverflow()` returns true"
    (the element geometry is fixed during one `truncateText` invocation), and
    `clientWidthZero : Bool` models `targetElement.clientWidth === 0`.
  - Canvas text measurement is a deterministic oracle
    `Char → String → ℚ → ℚ` (character, fontFamily, fontSize ↦ width); the
    number-to-string conversion inside the cache key template literal is
    modelled by `toString` on `ℚ`.
  - `getAvailableWidth` / `getAvailableWidthWhenSharing` live in
    `element-utils`, whose result is a plain number fed into the truncation
    logic; it enters the model as the parameter `availableWidth`.
-/

namespace StringUtils

/-- `FontWidthMap`: fontFamily → (character → width at 16px), partial on both
levels, mirroring `fontWidthMap[fontFamily]` and `characterWidthMap[character]`
possibly being `undefined`. -/
def FontWidthMap : Type := String → Option (Char → Option ℚ)

/-- The module-level `measureCache : Map<string, number>`, as an association
list; `Map.set` on a missing key is modelled by consing the new binding. -/
def Cache : Type := List (String × ℚ)

/-- The cache key template literal `` `${character}|${fontFamily}|${fontSize}` ``. -/
def cacheKey (character : Char) (fontFamily : String) (fontSize : ℚ) : String :=
  String.singleton character ++ "|" ++ fontFamily ++ "|" ++ toString fontSize

/-- `fontFamily.replace(/['"]/g, "")`: drop single and double quote characters
(code points 39 and 34). -/
def normalizeFont (fontFamily : String) : String :=
  String.mk (fontFamily.data.filter
    (fun ch => ch ≠ Char.ofNat 39 ∧ ch ≠ Char.ofNat 34))

/-- `measureCharacterWidth` from `string-utils.ts` (lines 20-46): cache hit
returns the stored value; otherwise, with no canvas context, return
`fontSize * 0.6` without caching; otherwise measure via the canvas oracle on
the normalized font and store the result under the key. -/
def measureCharacterWidth (canvas : Bool) (oracle : Char → String → ℚ → ℚ)
    (character : Char) (fontFamily : String) (fontSize : ℚ)
    (cache : Cache) : ℚ × Cache :=
  let key := cacheKey character fontFamily fontSize
  match List.lookup key cache with
  | some cached => (cached, cache)
  | none =>
    if canvas = false then
      (fontSize * (6 / 10), cache)
    else
      let width := oracle character (normalizeFont fontFamily) fontSize
      (width, (key, width) :: cache)

/-- `getCharacterWidth` from `string-utils.ts` (lines 48-62): table hit returns
the tabulated width scaled by `fontSize / 16`; otherwise fall through to
`measureCharacterWidth`. -/
def getCharacterWidth (fontWidthMap : FontWidthMap) (canvas : Bool)
    (oracle : Char → String → ℚ → ℚ) (character : Char) (fontFamily : String)
    (fontSize : ℚ) (cache : Cache) : ℚ × Cache :=
  match fontWidthMap fontFamily with
  | some characterWidthMap =>
    match characterWidthMap character with
    | some w => (w * (fontSize / 16), cache)
    | none => measureCharacterWidth canvas oracle character fontFamily fontSize cache
  | none => measureCharacterWidth canvas oracle character fontFamily fontSize cache

/-- A character misses the width table when the family is absent or the family
map lacks the character. -/
def tableMiss (fontWidthMap : FontWidthMap) (character : Char)
    (fontFamily : String) : Prop :=
  fontWidthMap fontFamily = none ∨
    ∃ cm, fontWidthMap fontFamily = some cm ∧ cm character = none

instance (m : FontWidthMap) (c : Char) (ff : String) :
    Decidable (tableMiss m c ff) := by
  unfold tableMiss
  cases h : m ff with
  | none => exact isTrue (Or.inl rfl)
  | some cm =>
    cases hc : cm c with
    | none => exact isTrue (Or.inr ⟨cm, rfl, hc⟩)
    | some w =>
      refine isFalse ?_
      rintro (h1 | ⟨cm2, h2, h3⟩)
      · exact Option.noConfusion h1
      · rw [Option.some_inj] at h2
        subst h2
        rw [hc] at h3
        exact Option.noConfusion h3

end StringUtils

namespace V4

/-- `getStringWidth` (string-utils.ts lines 64-76) specialised to a fixed
font family and size: sum the per-character width `cw` over the characters.
`cw` stands for `getCharacterWidth` at that family/size (whose statefulness is
only memoisation of a deterministic measurement, so its value is a function of
the character). -/
def stringWidth (cw : Char → ℚ) (text : List Char) : ℚ :=
  (text.map cw).sum

/-- The budget adjustments of `part_004` `truncateText` (lines 28-38), the
multi-line part being identical to `part_003` lines 28-31: when
`lineLimit > 1`, the usable width becomes
`availableWidth * lineLimit - getCharacterWidth("W", fontFamily, fontSize)`;
then the 2px `SAFETY_BUFFER` is subtracted. -/
def adjustedWidth (cw : Char → ℚ) (availableWidth lineLimit : ℚ) : ℚ :=
  (if 1 < lineLimit then availableWidth * lineLimit - cw 'W' else availableWidth) - 2

/-- The greedy loop of `part_004` `truncateText` (lines 69-94):
`for (i = 0; i < floor(len/2); i++)` takes the widths of `originalText[i]` and
`originalText[len-i-1]`, breaks when `remainingWidth - fw - lw <= 0`, and
otherwise consumes both widths, appending the front character to `firstHalf`
and prepending the back character to `secondHalf`. -/
def greedyLoop (cw : Char → ℚ) (text : List Char) (half : ℕ) :
    ℕ → ℚ → List Char → List Char → List Char × List Char
  | i, remainingWidth, firstHalf, secondHalf =>
    if _ : i < half then
      let fw := cw (text.getD i ' ')
      let lw := cw (text.getD (text.length - i - 1) ' ')
      if remainingWidth - fw - lw ≤ 0 then (firstHalf, secondHalf)
      else
        greedyLoop cw text half (i + 1) (remainingWidth - fw - lw)
          (firstHalf ++ [text.getD i ' '])
          (text.getD (text.length - i - 1) ' ' :: secondHalf)
    else (firstHalf, secondHalf)
  termination_by i => half - i

/-- `part_004` `truncateText` (lines 16-113), with the DOM-independent pieces
made explicit: `cw` is `getCharacterWidth` at the element's font family/size,
`availableWidth` the value computed by `element-utils`.  Returns
`(firstHalf, secondHalf, truncated)`; the source returns the rendered string
`firstHalf + ellipsisSymbol + secondHalf` (or `originalText` untruncated),
recovered by `truncateTextStr`. -/
def truncateText (cw : Char → ℚ) (availableWidth lineLimit : ℚ)
    (originalText ellipsisSymbol : List Char) : List Char × List Char × Bool :=
  let adjusted := adjustedWidth cw availableWidth lineLimit
  let maxTextWidth := stringWidth cw originalText
  if maxTextWidth ≤ adjusted then (originalText, [], false)
  else
    let middleEllipsisWidth := stringWidth cw ellipsisSymbol
    let p := greedyLoop cw originalText (originalText.length / 2) 0
      (adjusted - middleEllipsisWidth) [] []
    (p.1, p.2, true)

/-- The string actually returned by `part_004` `truncateText` (lines 60, 96). -/
def truncateTextStr (cw : Char → ℚ) (availableWidth lineLimit : ℚ)
    (originalText ellipsisSymbol : List Char) : List Char :=
  match truncateText cw availableWidth lineLimit originalText ellipsisSymbol with
  | (f, s, true) => f ++ ellipsisSymbol ++ s
  | (f, _, false) => f

end V4

namespace V8

/-- `TruncateResult` of `part_008` (lines 14-19). -/
structure TruncateResult where
  firstHalf : List Char
  secondHalf : List Char
  ellipsisSymbol : List Char
  truncated : Bool
  deriving Repr, DecidableEq

/-- The binary-search loop of `part_008` `truncateText` (lines 111-131):
`while (left <= right)` probes `slice(0, mid) + ellipsis + slice(len - mid)`;
on overflow, `right = mid - 1` (when `mid = 0` this drives `right` to `-1`,
ending the loop, hence the explicit exit), otherwise record the candidate and
`left = mid + 1`. -/
def bsLoop (ov : List Char → Bool) (text ell : List Char) :
    ℕ → ℕ → List Char → List Char → List Char × List Char
  | left, right, bestFirstHalf, bestSecondHalf =>
    if _ : left ≤ right then
      let mid := (left + right) / 2
      let firstHalf := text.take mid
      let secondHalf := text.drop (text.length - mid)
      if ov (firstHalf ++ ell ++ secondHalf) then
        if _ : mid = 0 then (bestFirstHalf, bestSecondHalf)
        else bsLoop ov text ell left (mid - 1) bestFirstHalf bestSecondHalf
      else bsLoop ov text ell (mid + 1) right firstHalf secondHalf
    else (bestFirstHalf, bestSecondHalf)
  termination_by left right => right + 1 - left
  decreasing_by
  · omega
  · omega

/-- The fine-tune loop of `part_008` `truncateText` (lines 136-166):
`while (canAddMore && firstIndex <= lastIndex)`, with `added` flattened into
the branch structure: first try to prepend `originalText[lastIndex]` to the
second half (guarded by `lastIndex >= 0 && lastIndex < originalTextLength` and
accepted only when the probed content does not overflow); only if that did not
add, try to append `originalText[firstIndex]` to the first half (guarded by
`firstIndex < originalTextLength`); if neither adds, `canAddMore` is false and
the loop ends.  Indices are JS numbers, carried as `ℤ`. -/
def fineTune (ov : List Char → Bool) (text ell : List Char) :
    List Char → List Char → ℤ → ℤ → List Char × List Char
  | bestFirstHalf, bestSecondHalf, firstIndex, lastIndex =>
    if _ : firstIndex ≤ lastIndex then
      if _ : (0 ≤ lastIndex ∧ lastIndex < (text.length : ℤ)) ∧
          ov (bestFirstHalf ++ ell ++ (text.getD lastIndex.toNat ' ' :: bestSecondHalf))
            = false then
        fineTune ov text ell bestFirstHalf
          (text.getD lastIndex.toNat ' ' :: bestSecondHalf) firstIndex (lastIndex - 1)
      else if _ : firstIndex < (text.length : ℤ) ∧
          ov ((bestFirstHalf ++ [text.getD firstIndex.toNat ' ']) ++ ell ++ bestSecondHalf)
            = false then
        fineTune ov text ell (bestFirstHalf ++ [text.getD firstIndex.toNat ' '])
          bestSecondHalf (firstIndex + 1) lastIndex
      else (bestFirstHalf, bestSecondHalf)
    else (bestFirstHalf, bestSecondHalf)
  termination_by _ _ firstIndex lastIndex => (lastIndex + 1 - firstIndex).toNat
  decreasing_by
  · omega
  · omega

/-- `part_008` `truncateText` (lines 49-174).  `ov` models `checkOverflow()`
as a function of the content last written to `targetElement.textContent`
(`scrollWidth > clientWidth || (lineLimit > 1 && scrollHeight > clientHeight)`
at fixed element geometry); `clientWidthZero` models
`targetElement.clientWidth === 0`; `availableWidth` is the `element-utils`
result. -/
def truncateText (ov : List Char → Bool) (clientWidthZero : Bool)
    (availableWidth lineLimit : ℚ) (originalText ellipsisSymbol : List Char) :
    TruncateResult :=
  let aw := if 1 < lineLimit then availableWidth * lineLimit - 20 else availableWidth
  if aw ≤ 0 then ⟨originalText, [], [], false⟩
  else if clientWidthZero then ⟨originalText, [], [], false⟩
  else if ov originalText = false then ⟨originalText, [], [], false⟩
  else
    let n := originalText.length
    let best := bsLoop ov originalText ellipsisSymbol 0 (n / 2) [] []
    let tuned := fineTune ov originalText ellipsisSymbol best.1 best.2
      (best.1.length : ℤ) ((n : ℤ) - (best.2.length : ℤ) - 1)
    ⟨tuned.1, tuned.2, ellipsisSymbol, true⟩

/-- A JavaScript value as far as the run-time guards of `truncateOnResize`
(lines 193-197) can distinguish it: a string, a number, or anything else. -/
inductive JsValue where
  | str (s : String)
  | num (q : ℚ)
  | other
  deriving Repr, DecidableEq

/-- `typeof ellipsisSymbol === "string" ? ellipsisSymbol : "..."` (line 195-196;
an absent field already received the destructuring default `"..."`, a string). -/
def normalizeEllipsis : JsValue → String
  | .str s => s
  | _ => "..."

/-- `typeof lineLimit === "number" ? lineLimit : 1` (line 197; an absent field
already received the destructuring default `1`, a number). -/
def normalizeLineLimit : JsValue → ℚ
  | .num q => q
  | _ => 1

/-- The `runTruncate` closure of `part_008` `truncateOnResize` (lines 189-198):
apply the run-time type guards to the configured ellipsis symbol and line
limit, then invoke `truncateText`. -/
def runTruncate (ov : List Char → Bool) (clientWidthZero : Bool)
    (availableWidth : ℚ) (originalText : String)
    (ellipsisSymbol lineLimit : JsValue) : TruncateResult :=
  truncateText ov clientWidthZero availableWidth (normalizeLineLimit lineLimit)
    originalText.data (normalizeEllipsis ellipsisSymbol).data

end V8

namespace StringUtils

/-- A cache hit in `measureCharacterWidth` returns the stored value and leaves
the cache untouched. -/
theorem measureCharacterWidth_hit (canvas : Bool)
    (oracle : Char → String → ℚ → ℚ) (character : Char) (fontFamily : String)
    (fontSize : ℚ) (cache : Cache) (v : ℚ)
    (h : cache.lookup (cacheKey character fontFamily fontSize) = some v) :
    measureCharacterWidth canvas oracle character fontFamily fontSize cache
      = (v, cache) := by
  simp [measureCharacterWidth, h]

/-- `measureCharacterWidth` never drops or overwrites an existing binding. -/
theorem measureCharacterWidth_superset (canvas : Bool)
    (oracle : Char → String → ℚ → ℚ) (character : Char) (fontFamily : String)
    (fontSize : ℚ) (cache : Cache) (k : String) (v : ℚ)
    (h : cache.lookup k = some v) :
    (measureCharacterWidth canvas oracle character fontFamily fontSize cache).2.lookup k
      = some v := by
  unfold measureCharacterWidth
  cases hl : cache.lookup (cacheKey character fontFamily fontSize) with
  | some w => simp only [hl]; exact h
  | none =>
    simp only [hl]
    cases canvas with
    | false => simpa using h
    | true =>
      by_cases hk : k = cacheKey character fontFamily fontSize
      · rw [hk] at h
        rw [h] at hl
        exact Option.noConfusion hl
      · simp only [Bool.true_eq_false, if_false]
        rw [List.lookup_cons, beq_false_of_ne hk]
        exact h

/-- With a canvas context, `measureCharacterWidth` leaves its own key bound to
the value it returns. -/
theorem measureCharacterWidth_caches (oracle : Char → String → ℚ → ℚ)
    (character : Char) (fontFamily : String) (fontSize : ℚ) (cache : Cache) :
    (measureCharacterWidth true oracle character fontFamily fontSize cache).2.lookup
        (cacheKey character fontFamily fontSize)
      = some (measureCharacterWidth true oracle character fontFamily fontSize cache).1 := by
  unfold measureCharacterWidth
  cases hl : cache.lookup (cacheKey character fontFamily fontSize) with
  | some w => simp only [hl]
  | none =>
    simp only [hl, Bool.true_eq_false, if_false]
    rw [List.lookup_cons, beq_self_eq_true]

/-- A table hit short-circuits `getCharacterWidth`: the scaled table entry is
returned and the cache is left untouched. -/
theorem getCharacterWidth_hit_eq (fontWidthMap : FontWidthMap)
    (canvas : Bool) (oracle : Char → String → ℚ → ℚ) (character : Char)
    (fontFamily : String) (fontSize : ℚ) (cache : Cache)
    (cm : Char → Option ℚ) (w : ℚ)
    (hf : fontWidthMap fontFamily = some cm) (hc : cm character = some w) :
    getCharacterWidth fontWidthMap canvas oracle character
      fontFamily fontSize cache = (w * (fontSize / 16), cache) := by
  simp [getCharacterWidth, hf, hc]

/-- When the width table misses, `getCharacterWidth` is exactly
`measureCharacterWidth`. -/
theorem getCharacterWidth_of_tableMiss (fontWidthMap : FontWidthMap)
    (canvas : Bool) (oracle : Char → String → ℚ → ℚ) (character : Char)
    (fontFamily : String) (fontSize : ℚ) (cache : Cache)
    (h : tableMiss fontWidthMap character fontFamily) :
    getCharacterWidth fontWidthMap canvas oracle character fontFamily fontSize cache
      = measureCharacterWidth canvas oracle character fontFamily fontSize cache := by
  unfold getCharacterWidth
  rcases h with h1 | ⟨cm, h2, h3⟩
  · simp only [h1]
  · simp only [h2, h3]

end StringUtils

namespace V8

/-- Reading the element at the join point of an append. -/
theorem getD_append_cons (l1 l2 : List Char) (c : Char) :
    (l1 ++ c :: l2).getD l1.length ' ' = c := by
  rw [List.getD_eq_getElem?_getD, List.getElem?_append_right (Nat.le_refl _)]
  simp

/-- Invariant of the binary-search loop: starting from a prefix/suffix pair of
the text whose lengths do not overlap, with the probe length bounded by half
the text length, the loop returns such a pair. -/
theorem bsLoop_spec (ov : List Char → Bool) (text ell : List Char) :
    ∀ (l r : ℕ) (bf bs : List Char),
      r ≤ text.length / 2 →
      (∃ t, bf ++ t = text) → (∃ t, t ++ bs = text) →
      bf.length + bs.length ≤ text.length →
      ((∃ t, (bsLoop ov text ell l r bf bs).1 ++ t = text) ∧
       (∃ t, t ++ (bsLoop ov text ell l r bf bs).2 = text) ∧
       (bsLoop ov text ell l r bf bs).1.length
         + (bsLoop ov text ell l r bf bs).2.length ≤ text.length) := by
  intro l r bf bs
  induction l, r, bf, bs using bsLoop.induct ov text ell with
  | case1 l r bf bs hlr mid fh sh hov hmid =>
    intro hr h1 h2 h3
    rw [bsLoop]
    simp only [dif_pos hlr, if_pos hov, dif_pos hmid]
    exact ⟨h1, h2, h3⟩
  | case2 l r bf bs hlr mid fh sh hov hmid ih =>
    intro hr h1 h2 h3
    rw [bsLoop]
    simp only [dif_pos hlr]
    rw [if_pos hov, dif_neg hmid]
    exact ih (by omega) h1 h2 h3
  | case3 l r bf bs hlr mid fh sh hov ih =>
    intro hr h1 h2 h3
    rw [bsLoop]
    simp only [dif_pos hlr]
    rw [if_neg hov]
    apply ih hr
    · exact ⟨text.drop mid, List.take_append_drop mid text⟩
    · exact ⟨text.take (text.length - mid), List.take_append_drop _ text⟩
    · have hmr : mid ≤ r := by omega
      have hlen : (List.take mid text).length
          + (List.drop (text.length - mid) text).length ≤ text.length := by
        simp only [List.length_take, List.length_drop]
        omega
      exact hlen
  | case4 l r bf bs hlr =>
    intro hr h1 h2 h3
    rw [bsLoop]
    simp only [dif_neg hlr]
    exact ⟨h1, h2, h3⟩

/-- Invariant of the fine-tune loop: with the running indices synchronised to
the accumulated halves (`firstIndex` the first half's length, `lastIndex` the
index just before the second half's source range), a non-overlapping
prefix/suffix pair is preserved. -/
theorem fineTune_spec (ov : List Char → Bool) (text ell : List Char) :
    ∀ (bf bs : List Char) (fi li : ℤ),
      fi = bf.length → li = (text.length : ℤ) - bs.length - 1 →
      (∃ t, bf ++ t = text) → (∃ t, t ++ bs = text) →
      bf.length + bs.length ≤ text.length →
      ((∃ t, (fineTune ov text ell bf bs fi li).1 ++ t = text) ∧
       (∃ t, t ++ (fineTune ov text ell bf bs fi li).2 = text) ∧
       (fineTune ov text ell bf bs fi li).1.length
         + (fineTune ov text ell bf bs fi li).2.length ≤ text.length) := by
  intro bf bs fi li
  induction bf, bs, fi, li using fineTune.induct ov text ell with
  | case1 bf bs fi li hfl hE ih =>
    intro hfi hli h1 h2 h3
    rw [fineTune, dif_pos hfl, dif_pos hE]
    obtain ⟨t, ht⟩ := h2
    have h0 : (0:ℤ) ≤ li := hE.1.1
    have htne : t ≠ [] := by
      intro hcon
      subst hcon
      simp only [List.nil_append] at ht
      subst ht
      omega
    obtain ⟨t0, c, htc⟩ : ∃ t0 c, t = t0 ++ [c] := by
      rcases List.eq_nil_or_concat t with h' | ⟨t0, c, h''⟩
      · exact absurd h' htne
      · exact ⟨t0, c, by simpa [List.concat_eq_append] using h''⟩
    subst htc
    have htext : t0 ++ (c :: bs) = text := by
      rw [← ht]
      simp
    have hlen : text.length = t0.length + 1 + bs.length := by
      rw [← htext]
      simp
      omega
    have hidx : li.toNat = t0.length := by omega
    have hc : text.getD li.toNat ' ' = c := by
      rw [hidx, ← htext]
      exact getD_append_cons t0 bs c
    rw [hc] at ih ⊢
    exact ih hfi (by simp only [List.length_cons]; push_cast; omega) h1
      ⟨t0, htext⟩ (by simp only [List.length_cons]; omega)
  | case2 bf bs fi li hfl hE hF ih =>
    intro hfi hli h1 h2 h3
    rw [fineTune, dif_pos hfl, dif_neg hE, dif_pos hF]
    obtain ⟨t, ht⟩ := h1
    have hfn : fi < (text.length : ℤ) := hF.1
    have htne : t ≠ [] := by
      intro hcon
      subst hcon
      simp only [List.append_nil] at ht
      subst ht
      omega
    obtain ⟨c, t1, hct⟩ : ∃ c t1, t = c :: t1 := by
      cases t with
      | nil => exact absurd rfl htne
      | cons c t1 => exact ⟨c, t1, rfl⟩
    subst hct
    have htext : (bf ++ [c]) ++ t1 = text := by simpa using ht
    have hidx : fi.toNat = bf.length := by omega
    have hc : text.getD fi.toNat ' ' = c := by
      rw [hidx, ← ht]
      exact getD_append_cons bf t1 c
    rw [hc] at ih ⊢
    exact ih (by simp only [List.length_append, List.length_singleton]; push_cast; omega)
      hli ⟨t1, htext⟩ h2
      (by simp only [List.length_append, List.length_singleton]; omega)
  | case3 bf bs fi li hfl hE hF =>
    intro hfi hli h1 h2 h3
    rw [fineTune, dif_pos hfl, dif_neg hE, dif_neg hF]
    exact ⟨h1, h2, h3⟩
  | case4 bf bs fi li hfl =>
    intro hfi hli h1 h2 h3
    rw [fineTune, dif_neg hfl]
    exact ⟨h1, h2, h3⟩

end V8

/-- C2: every `part_008` `truncateText` result satisfies the reconstruction
invariant — untruncated results return the original text whole with an empty
second half; truncated results carry a first half that is a prefix of the
original, a second half that is a suffix of it, and the two consume
non-overlapping source ranges (their lengths sum to at most the original's). -/
theorem truncateText_reconstruction (ov : List Char → Bool)
    (clientWidthZero : Bool) (availableWidth lineLimit : ℚ)
    (originalText ellipsisSymbol : List Char) :
    ((V8.truncateText ov clientWidthZero availableWidth lineLimit
        originalText ellipsisSymbol).truncated = false →
      (V8.truncateText ov clientWidthZero availableWidth lineLimit
        originalText ellipsisSymbol).firstHalf = originalText ∧
      (V8.truncateText ov clientWidthZero availableWidth lineLimit
        originalText ellipsisSymbol).secondHalf = []) ∧
    ((V8.truncateText ov clientWidthZero availableWidth lineLimit
        originalText ellipsisSymbol).truncated = true →
      (∃ t, (V8.truncateText ov clientWidthZero availableWidth lineLimit
        originalText ellipsisSymbol).firstHalf ++ t = originalText) ∧
      (∃ t, t ++ (V8.truncateText ov clientWidthZero availableWidth lineLimit
        originalText ellipsisSymbol).secondHalf = originalText) ∧
      (V8.truncateText ov clientWidthZero availableWidth lineLimit
          originalText ellipsisSymbol).firstHalf.length
        + (V8.truncateText ov clientWidthZero availableWidth lineLimit
          originalText ellipsisSymbol).secondHalf.length
        ≤ originalText.length) := by
  simp only [V8.truncateText]
  split_ifs <;>
    first
      | (simp; done)
      | (refine ⟨by simp, fun _ => ?_⟩
         obtain ⟨hb1, hb2, hb3⟩ := V8.bsLoop_spec ov originalText ellipsisSymbol 0
           (originalText.length / 2) [] [] (Nat.le_refl _)
           ⟨originalText, by simp⟩ ⟨originalText, by simp⟩ (by simp)
         exact V8.fineTune_spec ov originalText ellipsisSymbol _ _ _ _ rfl rfl hb1 hb2 hb3)

/-- C2 witness: with the length-based oracle (content longer than 6 overflows)
on `"abcdefghij"`, the truncated result's halves are a prefix and a suffix of
the original with non-overlapping extents. -/
theorem truncateText_reconstruction_witness :
    (∃ t, (V8.truncateText (fun s => s.length > 6) false 100 1
      "abcdefghij".data "...".data).firstHalf ++ t = "abcdefghij".data) ∧
    (∃ t, t ++ (V8.truncateText (fun s => s.length > 6) false 100 1
      "abcdefghij".data "...".data).secondHalf = "abcdefghij".data) ∧
    (V8.truncateText (fun s => s.length > 6) false 100 1
        "abcdefghij".data "...".data).firstHalf.length
      + (V8.truncateText (fun s => s.length > 6) false 100 1
        "abcdefghij".data "...".data).secondHalf.length
      ≤ "abcdefghij".data.length :=
  (truncateText_reconstruction (fun s => s.length > 6) false 100 1
    "abcdefghij".data "...".data).2
    (by simp [V8.truncateText, V8.bsLoop, V8.fineTune]; norm_num)

namespace V4

/-- `getStringWidth` distributes over concatenation: the measured width of a
concatenation is the sum of the parts' measured widths. -/
theorem stringWidth_append (cw : Char → ℚ) (a b : List Char) :
    stringWidth cw (a ++ b) = stringWidth cw a + stringWidth cw b := by
  simp [stringWidth]

/-- The greedy loop admits a pair of characters only while the remaining
budget strictly covers them, so the total width it adds to the accumulators
never exceeds the (non-negative part of the) starting budget. -/
theorem greedyLoop_width (cw : Char → ℚ) (text : List Char) (half : ℕ)
    (hcw : ∀ ch, 0 ≤ cw ch) :
    ∀ (i : ℕ) (r : ℚ) (fh sh : List Char),
      stringWidth cw (greedyLoop cw text half i r fh sh).1
        + stringWidth cw (greedyLoop cw text half i r fh sh).2
      ≤ stringWidth cw fh + stringWidth cw sh + max r 0 := by
  intro i r fh sh
  induction i, r, fh, sh using greedyLoop.induct cw text half with
  | case1 i r fh sh hi fw lw hcond =>
    rw [greedyLoop]
    simp only [dif_pos hi, if_pos hcond]
    have := le_max_right r 0
    linarith
  | case2 i r fh sh hi fw lw hcond ih =>
    rw [greedyLoop]
    simp only [dif_pos hi, if_neg hcond]
    have h1 : (0:ℚ) ≤ cw (text.getD i ' ') := hcw _
    have h2 : (0:ℚ) ≤ cw (text.getD (text.length - i - 1) ' ') := hcw _
    have hr : max (r - cw (text.getD i ' ') - cw (text.getD (text.length - i - 1) ' ')) 0
        = r - cw (text.getD i ' ') - cw (text.getD (text.length - i - 1) ' ') := by
      rw [max_eq_left]
      push_neg at hcond
      linarith
    rw [hr] at ih
    rw [stringWidth_append] at ih
    have hsh : stringWidth cw (text.getD (text.length - i - 1) ' ' :: sh)
        = cw (text.getD (text.length - i - 1) ' ') + stringWidth cw sh := by
      simp [stringWidth]
    rw [hsh] at ih
    have hfh : stringWidth cw [text.getD i ' '] = cw (text.getD i ' ') := by
      simp [stringWidth]
    rw [hfh] at ih
    have hmax : r ≤ max r 0 := le_max_left r 0
    linarith
  | case3 i r fh sh hi =>
    rw [greedyLoop]
    simp only [dif_neg hi]
    have := le_max_right r 0
    linarith

/-- The greedy loop never shrinks its accumulators. -/
theorem greedyLoop_len_ge (cw : Char → ℚ) (text : List Char) (half : ℕ) :
    ∀ (i : ℕ) (r : ℚ) (fh sh : List Char),
      fh.length + sh.length
        ≤ (greedyLoop cw text half i r fh sh).1.length
          + (greedyLoop cw text half i r fh sh).2.length := by
  intro i r fh sh
  induction i, r, fh, sh using greedyLoop.induct cw text half with
  | case1 i r fh sh hi fw lw hcond =>
    rw [greedyLoop]
    simp only [dif_pos hi, if_pos hcond]
    exact Nat.le_refl _
  | case2 i r fh sh hi fw lw hcond ih =>
    rw [greedyLoop]
    simp only [dif_pos hi, if_neg hcond]
    unfold_let fw lw at ih
    simp only [List.length_append, List.length_cons, List.length_singleton, List.length_nil] at ih
    omega
  | case3 i r fh sh hi =>
    rw [greedyLoop]
    simp only [dif_neg hi]
    exact Nat.le_refl _

/-- The greedy loop adds at most two characters per remaining iteration. -/
theorem greedyLoop_len_le (cw : Char → ℚ) (text : List Char) (half : ℕ) :
    ∀ (i : ℕ) (r : ℚ) (fh sh : List Char),
      (greedyLoop cw text half i r fh sh).1.length
        + (greedyLoop cw text half i r fh sh).2.length
      ≤ fh.length + sh.length + 2 * (half - i) := by
  intro i r fh sh
  induction i, r, fh, sh using greedyLoop.induct cw text half with
  | case1 i r fh sh hi fw lw hcond =>
    rw [greedyLoop]
    simp only [dif_pos hi, if_pos hcond]
    exact Nat.le_add_right _ _
  | case2 i r fh sh hi fw lw hcond ih =>
    rw [greedyLoop]
    simp only [dif_pos hi, if_neg hcond]
    unfold_let fw lw at ih
    simp only [List.length_append, List.length_cons, List.length_singleton, List.length_nil] at ih
    omega
  | case3 i r fh sh hi =>
    rw [greedyLoop]
    simp only [dif_neg hi]
    exact Nat.le_add_right _ _

/-- Enlarging the remaining budget never shrinks the number of characters the
greedy loop admits. -/
theorem greedyLoop_len_mono (cw : Char → ℚ) (text : List Char) (half : ℕ) :
    ∀ (i : ℕ) (r : ℚ) (fh sh : List Char) (r2 : ℚ), r ≤ r2 →
      (greedyLoop cw text half i r fh sh).1.length
        + (greedyLoop cw text half i r fh sh).2.length
      ≤ (greedyLoop cw text half i r2 fh sh).1.length
        + (greedyLoop cw text half i r2 fh sh).2.length := by
  intro i r fh sh
  induction i, r, fh, sh using greedyLoop.induct cw text half with
  | case1 i r fh sh hi fw lw hcond =>
    intro r2 hr2
    conv_lhs => rw [greedyLoop]
    simp only [dif_pos hi, if_pos hcond]
    exact greedyLoop_len_ge cw text half i r2 fh sh
  | case2 i r fh sh hi fw lw hcond ih =>
    intro r2 hr2
    have hcond2 : ¬ (r2 - cw (text.getD i ' ')
        - cw (text.getD (text.length - i - 1) ' ') ≤ 0) := by
      push_neg at hcond ⊢
      linarith
    conv_lhs => rw [greedyLoop]
    conv_rhs => rw [greedyLoop]
    simp only [dif_pos hi, if_neg hcond, if_neg hcond2]
    exact ih (r2 - cw (text.getD i ' ') - cw (text.getD (text.length - i - 1) ' '))
      (by linarith)
  | case3 i r fh sh hi =>
    intro r2 hr2
    conv_lhs => rw [greedyLoop]
    conv_rhs => rw [greedyLoop]
    simp [dif_neg hi]

/-- The buffer-adjusted budget is monotone in the available width for any
fixed line limit. -/
theorem adjustedWidth_mono (cw : Char → ℚ) (lineLimit : ℚ) (aw1 aw2 : ℚ)
    (h : aw1 ≤ aw2) :
    adjustedWidth cw aw1 lineLimit ≤ adjustedWidth cw aw2 lineLimit := by
  unfold adjustedWidth
  split_ifs with hL
  · have hL0 : (0:ℚ) ≤ lineLimit := by linarith
    have := mul_le_mul_of_nonneg_right h hL0
    linarith
  · linarith

end V4

/-- C6: for fixed text, ellipsis symbol and width function (font family and
size), increasing `availableWidth` never decreases the combined length of the
retained first and second halves. -/
theorem truncateText_monotone (cw : Char → ℚ) (lineLimit : ℚ)
    (originalText ellipsisSymbol : List Char) (aw1 aw2 : ℚ) (h : aw1 ≤ aw2) :
    (V4.truncateText cw aw1 lineLimit originalText ellipsisSymbol).1.length
      + (V4.truncateText cw aw1 lineLimit originalText ellipsisSymbol).2.1.length
    ≤ (V4.truncateText cw aw2 lineLimit originalText ellipsisSymbol).1.length
      + (V4.truncateText cw aw2 lineLimit originalText ellipsisSymbol).2.1.length := by
  have hadj := V4.adjustedWidth_mono cw lineLimit aw1 aw2 h
  unfold V4.truncateText
  by_cases hfit1 : V4.stringWidth cw originalText ≤ V4.adjustedWidth cw aw1 lineLimit
  · have hfit2 : V4.stringWidth cw originalText ≤ V4.adjustedWidth cw aw2 lineLimit :=
      le_trans hfit1 hadj
    simp [if_pos hfit1, if_pos hfit2]
  · by_cases hfit2 : V4.stringWidth cw originalText ≤ V4.adjustedWidth cw aw2 lineLimit
    · simp only [if_neg hfit1, if_pos hfit2]
      have hle := V4.greedyLoop_len_le cw originalText (originalText.length / 2) 0
        (V4.adjustedWidth cw aw1 lineLimit - V4.stringWidth cw ellipsisSymbol) [] []
      simp only [List.length_nil] at hle
      simp only [List.length_nil]
      omega
    · simp only [if_neg hfit1, if_neg hfit2]
      exact V4.greedyLoop_len_mono cw originalText (originalText.length / 2) 0
        (V4.adjustedWidth cw aw1 lineLimit - V4.stringWidth cw ellipsisSymbol) [] []
        (V4.adjustedWidth cw aw2 lineLimit - V4.stringWidth cw ellipsisSymbol)
        (by linarith)

/-- C6 witness: unit widths, text `"abcdefghij"`, budgets 7 ≤ 10: the
combined retained length does not decrease. -/
theorem truncateText_monotone_witness :
    (V4.truncateText (fun _ => (1:ℚ)) 7 1 "abcdefghij".data "...".data).1.length
      + (V4.truncateText (fun _ => (1:ℚ)) 7 1 "abcdefghij".data "...".data).2.1.length
    ≤ (V4.truncateText (fun _ => (1:ℚ)) 10 1 "abcdefghij".data "...".data).1.length
      + (V4.truncateText (fun _ => (1:ℚ)) 10 1 "abcdefghij".data "...".data).2.1.length :=
  truncateText_monotone (fun _ => (1:ℚ)) 1 "abcdefghij".data "...".data 7 10
    (by norm_num)

/-- C1 counterexample: widths `'W' ↦ 100`, `'.' ↦ 50` (all non-negative),
text `"WW"`, ellipsis `"..."`, `availableWidth = 10`: the result is truncated
to the bare ellipsis, whose re-measured width 150 exceeds
`availableWidth + SAFETY_BUFFER = 12` — the adjusted budget cannot even hold
the ellipsis symbol, and the engine emits it regardless. -/
theorem truncateText_non_overflow_counterexample :
    (V4.truncateText (fun c => if c = '.' then (50:ℚ) else 100) 10 1
      "WW".data "...".data).2.2 = true ∧
    ¬ (V4.stringWidth (fun c => if c = '.' then (50:ℚ) else 100)
        (V4.truncateTextStr (fun c => if c = '.' then (50:ℚ) else 100) 10 1
          "WW".data "...".data) ≤ 10 + 2) := by
  constructor
  · simp [V4.truncateText, V4.greedyLoop, V4.adjustedWidth, V4.stringWidth]
    norm_num
  · simp [V4.truncateTextStr, V4.truncateText, V4.greedyLoop, V4.adjustedWidth,
      V4.stringWidth]
    norm_num

/-- C1 amended: with non-negative character widths, whenever the ellipsis
symbol itself fits the adjusted budget (availableWidth after multi-line
adjustment minus the safety buffer), the re-measured width of the emitted
string — `firstHalf + ellipsisSymbol + secondHalf` when truncated, the
original text otherwise — never exceeds that adjusted budget, and so never
exceeds `availableWidth` by more than the safety buffer. -/
theorem truncateTextStr_non_overflow (cw : Char → ℚ)
    (availableWidth lineLimit : ℚ) (originalText ellipsisSymbol : List Char)
    (hcw : ∀ ch, 0 ≤ cw ch)
    (hell : V4.stringWidth cw ellipsisSymbol
      ≤ V4.adjustedWidth cw availableWidth lineLimit) :
    V4.stringWidth cw
        (V4.truncateTextStr cw availableWidth lineLimit originalText ellipsisSymbol)
      ≤ V4.adjustedWidth cw availableWidth lineLimit := by
  unfold V4.truncateTextStr V4.truncateText
  by_cases hfit : V4.stringWidth cw originalText
      ≤ V4.adjustedWidth cw availableWidth lineLimit
  · simp only [if_pos hfit]
    exact hfit
  · simp only [if_neg hfit]
    have hg := V4.greedyLoop_width cw originalText (originalText.length / 2) hcw 0
      (V4.adjustedWidth cw availableWidth lineLimit
        - V4.stringWidth cw ellipsisSymbol) [] []
    have hmax : max (V4.adjustedWidth cw availableWidth lineLimit
        - V4.stringWidth cw ellipsisSymbol) 0
        = V4.adjustedWidth cw availableWidth lineLimit
          - V4.stringWidth cw ellipsisSymbol := by
      rw [max_eq_left]
      linarith
    rw [hmax] at hg
    have hnil : V4.stringWidth cw [] = 0 := by simp [V4.stringWidth]
    rw [hnil] at hg
    rw [V4.stringWidth_append, V4.stringWidth_append]
    linarith

/-- C1 amended witness: unit character widths, text `"abcdefghij"`, budget 10:
the truncated result `"ab...ij"` re-measures to 7 ≤ adjusted budget 8. -/
theorem truncateTextStr_non_overflow_witness :
    V4.stringWidth (fun _ => (1:ℚ))
        (V4.truncateTextStr (fun _ => (1:ℚ)) 10 1 "abcdefghij".data "...".data)
      ≤ V4.adjustedWidth (fun _ => (1:ℚ)) 10 1 :=
  truncateTextStr_non_overflow (fun _ => (1:ℚ)) 10 1 "abcdefghij".data
    "...".data (fun _ => by norm_num)
    (by simp [V4.stringWidth, V4.adjustedWidth]; norm_num)

/-- C7: when the `FontWidthTable` has an entry for the font family and
character, `getCharacterWidth` returns exactly that entry scaled by
`fontSize / 16`, for every canvas state, measurement oracle and cache, and
leaves the cache untouched (the live-measurement path is never consulted). -/
theorem getCharacterWidth_table_hit (fontWidthMap : StringUtils.FontWidthMap)
    (canvas : Bool) (oracle : Char → String → ℚ → ℚ) (character : Char)
    (fontFamily : String) (fontSize : ℚ) (cache : StringUtils.Cache)
    (cm : Char → Option ℚ) (w : ℚ)
    (hf : fontWidthMap fontFamily = some cm) (hc : cm character = some w) :
    StringUtils.getCharacterWidth fontWidthMap canvas oracle character
      fontFamily fontSize cache = (w * (fontSize / 16), cache) :=
  StringUtils.getCharacterWidth_hit_eq fontWidthMap canvas oracle character
    fontFamily fontSize cache cm w hf hc

/-- C7 witness: a concrete table with `Arial → 'a' → 8` at 32px yields
`8 * (32 / 16) = 16`, with the cache returned unchanged. -/
theorem getCharacterWidth_table_hit_witness :
    StringUtils.getCharacterWidth
      (fun ff => if ff = "Arial" then some (fun c => if c = 'a' then some 8 else none) else none)
      true (fun _ _ _ => 999) 'a' "Arial" 32 [] = (8 * (32 / 16), []) :=
  getCharacterWidth_table_hit _ true (fun _ _ _ => 999) 'a' "Arial" 32 []
    (fun c => if c = 'a' then some 8 else none) 8 (by simp) (by simp)

/-- C8: the measurement cache is append-only (no binding is ever evicted or
overwritten by a call), and once a table-missing character has been measured
for a triple (canvas present), the triple's key holds the returned width and
the very next `getCharacterWidth` call with the same triple is a cache hit:
it returns the stored value and leaves the cache exactly as it was. -/
theorem getCharacterWidth_cache_append_only (fontWidthMap : StringUtils.FontWidthMap)
    (canvas : Bool) (oracle : Char → String → ℚ → ℚ) (character : Char)
    (fontFamily : String) (fontSize : ℚ) (cache : StringUtils.Cache) :
    (∀ k v, cache.lookup k = some v →
      (StringUtils.getCharacterWidth fontWidthMap canvas oracle character
        fontFamily fontSize cache).2.lookup k = some v) ∧
    (StringUtils.tableMiss fontWidthMap character fontFamily → canvas = true →
      (StringUtils.getCharacterWidth fontWidthMap canvas oracle character
          fontFamily fontSize cache).2.lookup
          (StringUtils.cacheKey character fontFamily fontSize)
        = some (StringUtils.getCharacterWidth fontWidthMap canvas oracle character
            fontFamily fontSize cache).1 ∧
      StringUtils.getCharacterWidth fontWidthMap canvas oracle character
          fontFamily fontSize
          (StringUtils.getCharacterWidth fontWidthMap canvas oracle character
            fontFamily fontSize cache).2
        = ((StringUtils.getCharacterWidth fontWidthMap canvas oracle character
            fontFamily fontSize cache).1,
           (StringUtils.getCharacterWidth fontWidthMap canvas oracle character
            fontFamily fontSize cache).2)) := by
  constructor
  · intro k v hv
    by_cases hm : StringUtils.tableMiss fontWidthMap character fontFamily
    · rw [StringUtils.getCharacterWidth_of_tableMiss _ _ _ _ _ _ _ hm]
      exact StringUtils.measureCharacterWidth_superset _ _ _ _ _ _ _ _ hv
    · rcases hcm : fontWidthMap fontFamily with _ | cm
      · exact absurd (Or.inl hcm) hm
      · rcases hw : cm character with _ | w
        · exact absurd (Or.inr ⟨cm, hcm, hw⟩) hm
        · rw [StringUtils.getCharacterWidth_hit_eq fontWidthMap canvas oracle character
            fontFamily fontSize cache cm w hcm hw]
          exact hv
  · intro hm hcanvas
    subst hcanvas
    rw [StringUtils.getCharacterWidth_of_tableMiss _ _ _ _ _ _ _ hm]
    have hcached := StringUtils.measureCharacterWidth_caches oracle character
      fontFamily fontSize cache
    refine ⟨hcached, ?_⟩
    rw [StringUtils.getCharacterWidth_of_tableMiss _ _ _ _ _ _ _ hm]
    exact StringUtils.measureCharacterWidth_hit _ _ _ _ _ _ _ hcached

/-- C8 witness: with an empty table, a canvas, oracle width 7 for `'a'` at
Arial/16, after the first measuring call the key is bound to the returned
width and an immediate repeat call returns it with the cache unchanged. -/
theorem getCharacterWidth_cache_append_only_witness :
    (StringUtils.getCharacterWidth (fun _ => none) true (fun _ _ _ => 7) 'a'
        "Arial" 16 []).2.lookup (StringUtils.cacheKey 'a' "Arial" 16)
      = some (StringUtils.getCharacterWidth (fun _ => none) true (fun _ _ _ => 7)
          'a' "Arial" 16 []).1 ∧
    StringUtils.getCharacterWidth (fun _ => none) true (fun _ _ _ => 7) 'a'
        "Arial" 16
        (StringUtils.getCharacterWidth (fun _ => none) true (fun _ _ _ => 7)
          'a' "Arial" 16 []).2
      = ((StringUtils.getCharacterWidth (fun _ => none) true (fun _ _ _ => 7)
          'a' "Arial" 16 []).1,
         (StringUtils.getCharacterWidth (fun _ => none) true (fun _ _ _ => 7)
          'a' "Arial" 16 []).2) :=
  (getCharacterWidth_cache_append_only (fun _ => none) true (fun _ _ _ => 7)
    'a' "Arial" 16 []).2 (Or.inl rfl) rfl

/-- C4: when the computed available width (after the multi-line adjustment)
is zero or negative, `part_008` `truncateText` returns the original text with
`truncated = false` on every oracle and element state; being a total function,
this path raises nothing. -/
theorem truncateText_nonpositive_budget (ov : List Char → Bool)
    (clientWidthZero : Bool) (availableWidth lineLimit : ℚ)
    (originalText ellipsisSymbol : List Char)
    (h : (if 1 < lineLimit then availableWidth * lineLimit - 20 else availableWidth) ≤ 0) :
    V8.truncateText ov clientWidthZero availableWidth lineLimit
      originalText ellipsisSymbol = ⟨originalText, [], [], false⟩ := by
  simp only [V8.truncateText]
  rw [if_pos h]

/-- C4 witness: zero available width with an always-overflowing oracle still
returns the untruncated original. -/
theorem truncateText_nonpositive_budget_witness :
    V8.truncateText (fun _ => true) false 0 1 "abc".data "...".data
      = ⟨"abc".data, [], [], false⟩ :=
  truncateText_nonpositive_budget (fun _ => true) false 0 1 "abc".data
    "...".data (by norm_num)

/-- C10: whenever `part_008` `truncateText` reports `truncated = false`
(non-positive budget, element not laid out, or the text fits), the
`ellipsisSymbol` field of the result is the empty string, whatever non-empty
symbol the request supplied. -/
theorem truncateText_untruncated_empty_ellipsis (ov : List Char → Bool)
    (clientWidthZero : Bool) (availableWidth lineLimit : ℚ)
    (originalText ellipsisSymbol : List Char)
    (h : (V8.truncateText ov clientWidthZero availableWidth lineLimit
      originalText ellipsisSymbol).truncated = false) :
    (V8.truncateText ov clientWidthZero availableWidth lineLimit
      originalText ellipsisSymbol).ellipsisSymbol = [] := by
  revert h
  simp only [V8.truncateText]
  split_ifs <;> simp

/-- C10 witness: a fitting text (oracle reports no overflow) comes back with
`truncated = false` and an empty result ellipsis despite the supplied `"..."`. -/
theorem truncateText_untruncated_empty_ellipsis_witness :
    (V8.truncateText (fun _ => false) false 100 1 "abc".data "...".data).ellipsisSymbol
      = [] :=
  truncateText_untruncated_empty_ellipsis (fun _ => false) false 100 1
    "abc".data "...".data (by simp [V8.truncateText])

/-- C9 counterexample: for a wrong-typed (numeric) ellipsis symbol the run-time
guard substitutes the three-ASCII-dot string `"..."`, which is not the
documented single-character `"…"` (U+2026); the wrong-typed line limit does
get the documented default `1`. -/
theorem normalizeEllipsis_default_counterexample :
    V8.normalizeEllipsis (V8.JsValue.num 5) = "..." ∧
    V8.normalizeLineLimit (V8.JsValue.str "x") = 1 ∧
    ("..." : String) ≠ "…" := by
  refine ⟨rfl, rfl, ?_⟩
  decide

/-- C9 amended: for every wrong-typed ellipsis symbol and line limit,
`runTruncate` does not fail: it substitutes the code's defaults — ellipsis
symbol `"..."` and line limit `1` — and proceeds with `truncateText`. -/
theorem runTruncate_default_substitution (ov : List Char → Bool)
    (clientWidthZero : Bool) (availableWidth : ℚ) (originalText : String)
    (e l : V8.JsValue) (he : ∀ s, e ≠ V8.JsValue.str s)
    (hl : ∀ q, l ≠ V8.JsValue.num q) :
    V8.runTruncate ov clientWidthZero availableWidth originalText e l
      = V8.truncateText ov clientWidthZero availableWidth 1
          originalText.data "...".data := by
  cases e with
  | str s => exact absurd rfl (he s)
  | num q =>
    cases l with
    | num q2 => exact absurd rfl (hl q2)
    | str s2 => rfl
    | other => rfl
  | other =>
    cases l with
    | num q2 => exact absurd rfl (hl q2)
    | str s2 => rfl
    | other => rfl

/-- C9 amended witness: a numeric ellipsis symbol and a string line limit are
replaced by `"..."` and `1`. -/
theorem runTruncate_default_substitution_witness :
    V8.runTruncate (fun _ => true) false 50 "abcdefghij"
      (V8.JsValue.num 5) (V8.JsValue.str "x")
      = V8.truncateText (fun _ => true) false 50 1 "abcdefghij".data "...".data :=
  runTruncate_default_substitution (fun _ => true) false 50 "abcdefghij"
    (V8.JsValue.num 5) (V8.JsValue.str "x")
    (fun _ h => V8.JsValue.noConfusion h) (fun _ h => V8.JsValue.noConfusion h)

/-- C5: for `lineLimit > 1` the effective budget of the measured-model search
is exactly `availableWidth * lineLimit - getCharacterWidth('W')` (before the
2px safety buffer), and the whole engine at `lineLimit` behaves identically
to the single-line engine given that widened budget. -/
theorem truncateText_multiline_budget (cw : Char → ℚ)
    (availableWidth lineLimit : ℚ) (originalText ellipsisSymbol : List Char)
    (h : 1 < lineLimit) :
    V4.adjustedWidth cw availableWidth lineLimit
      = availableWidth * lineLimit - cw 'W' - 2 ∧
    V4.truncateText cw availableWidth lineLimit originalText ellipsisSymbol
      = V4.truncateText cw (availableWidth * lineLimit - cw 'W') 1
          originalText ellipsisSymbol := by
  have h1 : ¬ (1:ℚ) < 1 := by norm_num
  have hadj : V4.adjustedWidth cw availableWidth lineLimit
      = V4.adjustedWidth cw (availableWidth * lineLimit - cw 'W') 1 := by
    simp only [V4.adjustedWidth, if_pos h, if_neg h1]
  refine ⟨by simp only [V4.adjustedWidth, if_pos h], ?_⟩
  simp only [V4.truncateText, hadj]

/-- C5 witness: at `lineLimit = 2` with per-line width 6 and unit character
widths, the engine returns what the single-line engine returns at budget
`2 * 6 - 1 = 11`. -/
theorem truncateText_multiline_budget_witness :
    V4.adjustedWidth (fun _ => 1) 6 2 = 6 * 2 - 1 - 2 ∧
    V4.truncateText (fun _ => 1) 6 2 "abcdefghij".data "...".data
      = V4.truncateText (fun _ => 1) (6 * 2 - 1) 1 "abcdefghij".data "...".data :=
  truncateText_multiline_budget (fun _ => 1) 6 2 "abcdefghij".data "...".data
    (by norm_num)

/-- C3 counterexample: with uniform character width 9, the one-character text
`"a"` has `stringWidth 9 ≤ availableWidth 10`, yet the engine truncates it:
the fits check compares against the buffer-adjusted budget `10 - 2 = 8`. -/
theorem truncateText_fits_claim_counterexample :
    V4.stringWidth (fun _ => (9:ℚ)) ['a'] ≤ 10 ∧
    V4.truncateText (fun _ => (9:ℚ)) 10 1 ['a'] "...".data = ([], [], true) := by
  constructor
  · simp [V4.stringWidth]
    norm_num
  · simp [V4.truncateText, V4.greedyLoop, V4.adjustedWidth, V4.stringWidth]
    norm_num

/-- C3 amended: if the measured width of the original text is at most the
buffer-adjusted available width, the result is untruncated with the first
half equal to the original text and nothing removed. -/
theorem truncateText_fits_untruncated (cw : Char → ℚ)
    (availableWidth lineLimit : ℚ) (originalText ellipsisSymbol : List Char)
    (h : V4.stringWidth cw originalText
      ≤ V4.adjustedWidth cw availableWidth lineLimit) :
    V4.truncateText cw availableWidth lineLimit originalText ellipsisSymbol
      = (originalText, [], false) := by
  simp only [V4.truncateText]
  rw [if_pos h]

/-- C3 amended witness: width 8 text under adjusted budget `10 - 2 = 8` is
returned whole. -/
theorem truncateText_fits_untruncated_witness :
    V4.truncateText (fun _ => (8:ℚ)) 10 1 ['a'] "...".data = (['a'], [], false) :=
  truncateText_fits_untruncated (fun _ => (8:ℚ)) 10 1 ['a'] "...".data
    (by simp [V4.stringWidth, V4.adjustedWidth]; norm_num)
